import Mathlib

/-!
Verification of the `customerimporter` package (TeamworkGoTest).

Go strings are modelled as `List Char` (Go compares strings byte-wise on
UTF-8, which coincides with code-point order, and the program only
normalizes ASCII case, per the package's stated non-goals).  Stateful
channel plumbing collapses to explicit list processing: the claims about
scheduling nondeterminism are expressed as permutation invariance of the
aggregation stage.
-/

namespace CustomerImporter

/-- Go `string`, as a list of Unicode code points. -/
abbrev Str := List Char

/-- `const EMAIL_IDX = 2` from `interview.go`. -/
def EMAIL_IDX : Nat := 2

/-- ASCII fragment of Go `unicode.IsSpace`, the characters
`strings.TrimSpace` removes from ASCII input: space, \t, \n, \v, \f, \r. -/
def goIsSpace (c : Char) : Bool :=
  c.toNat == 32 || c.toNat == 9 || c.toNat == 10 ||
  c.toNat == 11 || c.toNat == 12 || c.toNat == 13

/-- Go `strings.TrimSpace` (ASCII fragment): drop whitespace from both ends. -/
def trimSpace (s : Str) : Str :=
  ((s.dropWhile goIsSpace).reverse.dropWhile goIsSpace).reverse

/-- Go `strings.ToLower` on one character (ASCII fragment): map `A`..`Z`
(code points 65..90) to `a`..`z` by adding 32, leave everything else. -/
def toLowerChar (c : Char) : Char :=
  if 65 ≤ c.toNat ∧ c.toNat ≤ 90 then Char.ofNat (c.toNat + 32) else c

/-- Go `strings.ToLower` (ASCII fragment). -/
def toLower (s : Str) : Str := s.map toLowerChar

/-- Go `strings.SplitN(s, "@", 2)`, presented as an option: `none` when `s`
contains no `@` (Go returns the one-element slice `[s]`), `some (l, r)`
when `s = l ++ "@" ++ r` with the split at the first `@`. -/
def splitFirstAt : Str → Option (Str × Str)
  | [] => none
  | c :: rest =>
    if c = '@' then some ([], rest)
    else (splitFirstAt rest).map fun p => (c :: p.1, p.2)

/-- `extractDomain` from `interview.go`:
```
emailSplit := strings.SplitN(email, "@", 2)
if len(emailSplit) != 2 || strings.Contains(emailSplit[1], "@") { return "" }
return strings.ToLower(emailSplit[1])
```
The empty string is the invalid-input sentinel. -/
def extractDomain (email : Str) : Str :=
  match splitFirstAt email with
  | none => []
  | some (_, dom) => if '@' ∈ dom then [] else toLower dom

example : extractDomain "user@Example.COM".data = "example.com".data := by decide
example : extractDomain "@b.com".data = "b.com".data := by decide
example : extractDomain "a@".data = [] := by decide

/-- One row as delivered by a `csv.Reader.Read` call: either the parsed
field slice, or a per-row parse error (`err != io.EOF`). -/
inductive RawRow
  | ok (fields : List Str)
  | bad
deriving DecidableEq

/-- The Go `error` values the pipeline can surface: `io.EOF`, a CSV parse
error, and the header wrapper built by
`fmt.Errorf("error reading the header of csv: %v", err)`. -/
inductive GoError
  | eof
  | parse
  | headerRead (cause : GoError)
deriving DecidableEq

/-- `csvReader` from `interview.go`, with the channel send replaced by list
output: per-row parse errors are logged and skipped, rows with
`len(records) <= EMAIL_IDX` are logged and skipped, and otherwise
`records[EMAIL_IDX]` is emitted; `io.EOF` (the end of the list) stops the
loop. -/
def csvReader : List RawRow → List Str
  | [] => []
  | RawRow.bad :: rest => csvReader rest
  | RawRow.ok fields :: rest =>
    if fields.length ≤ EMAIL_IDX then csvReader rest
    else fields.getD EMAIL_IDX [] :: csvReader rest

/-- The body of one `extractDomains` worker on one email:
`extractDomain(strings.TrimSpace(email))`, dropping the empty sentinel. -/
def domainOfEmail (email : Str) : Option Str :=
  if extractDomain (trimSpace email) = [] then none
  else some (extractDomain (trimSpace email))

/-- `extractDomains` from `interview.go`: the multiset of domains the
worker pool sends on (arrival order is settled separately, as permutation
invariance of the aggregation stage). -/
def extractDomains (emails : List Str) : List Str :=
  emails.filterMap domainOfEmail

/-- Increment the count of the entry for key `d`, leave other entries. -/
def incr (d : Str) (p : Str × Nat) : Str × Nat :=
  if p.1 = d then (p.1, p.2 + 1) else p

/-- One step of `aggregateDomains`: `domainMap[domain]++` on a Go map,
modelled on an association list (a missing key reads as 0, so it is
inserted with count 1; an existing key is incremented in place). -/
def bump (m : List (Str × Nat)) (d : Str) : List (Str × Nat) :=
  if d ∈ m.map Prod.fst then m.map (incr d) else m ++ [(d, 1)]

/-- `aggregateDomains` from `interview.go`: drain the domain channel,
incrementing the map entry and the running total for each domain. -/
def aggregateDomains (ds : List Str) : List (Str × Nat) × Nat :=
  ds.foldl (fun acc d => (bump acc.1 d, acc.2 + 1)) ([], 0)

structure DomainStat where
  Name : Str
  Count : Nat
deriving DecidableEq

structure DomainsCount where
  DomainStats : List DomainStat
  TotalCount : Nat
deriving DecidableEq

/-- Go string comparison `a < b` (byte-wise lexicographic on UTF-8, which
is code-point lexicographic). -/
def strLt : Str → Str → Bool
  | [], [] => false
  | [], _ :: _ => true
  | _ :: _, [] => false
  | a :: as, b :: bs =>
    if a.toNat < b.toNat then true
    else if b.toNat < a.toNat then false
    else strLt as bs

/-- The order `sort.Slice` leaves the stats in: `x` may precede `y` iff
`y.Name < x.Name` is false. -/
def statLe (x y : DomainStat) : Prop := strLt y.Name x.Name = false

instance : DecidableRel statLe := fun _ _ => instDecidableEqBool _ _

/-- `createStats` from `interview.go`: one `DomainStat` per map entry,
sorted by `sort.Slice` with `Name < Name` as the comparator.  `sort.Slice`
is modelled by insertion sort: both produce a permutation sorted under
`statLe`, and the map's keys are distinct, so the output is the same. -/
def createStats (m : List (Str × Nat)) : List DomainStat :=
  List.insertionSort statLe (m.map fun p => ⟨p.1, p.2⟩)

/-- `processCsv` from `interview.go`.  The first `Read` consumes the
header; any error there is wrapped as the fatal header error.  The worker
count only sizes channels and the pool, so it does not enter the data
path. -/
def processCsv (rows : List RawRow) (numWorkers : Nat) :
    Except GoError (List (Str × Nat) × Nat) :=
  match rows with
  | [] => .error (.headerRead .eof)
  | RawRow.bad :: _ => .error (.headerRead .parse)
  | RawRow.ok _ :: rest =>
    let agg := aggregateDomains (extractDomains (csvReader rest))
    .ok (agg.1, agg.2)

/-- `ProcessFile` from `interview.go`, from the point where the input rows
are available (opening the file is I/O glue): on a `processCsv` error it
returns the zero value `&DomainsCount{}` plus the error, otherwise the
sorted stats and the total. -/
def ProcessFile (rows : List RawRow) (numWorkers : Nat) :
    DomainsCount × Option GoError :=
  match processCsv rows numWorkers with
  | .error e => (⟨[], 0⟩, some e)
  | .ok (m, total) => (⟨createStats m, total⟩, none)

/-- Decimal rendering of a count, Go `fmt.Sprintf("%d", n)`. -/
def natDecimal (n : Nat) : Str := Nat.toDigits 10 n

/-- The line `fmt.Sprintf("Total number of customers: %d\n", total)`. -/
def headerLine (total : Nat) : Str :=
  "Total number of customers: ".data ++ natDecimal total ++ ['\n']

/-- One line `fmt.Sprintf(OUTPUT_LINE_FORMAT, name, count)` with
`OUTPUT_LINE_FORMAT = "Domain: %s, Customers: %d\n"`. -/
def domainLine (s : DomainStat) : Str :=
  "Domain: ".data ++ s.Name ++ ", Customers: ".data ++ natDecimal s.Count ++ ['\n']

/-- `writeFile` from `interview.go`, as the byte sequence reaching the
file: the header `WriteString`, then one `WriteString` per stat in report
order, accumulated left to right. -/
def writeFileContent (dc : DomainsCount) : Str :=
  dc.DomainStats.foldl (fun acc s => acc ++ domainLine s) (headerLine dc.TotalCount)

/-- Modelled from the spec (section 6, Output formats), for comparison
with `writeFileContent`: first line `Total number of customers: <N>\n`,
followed by one line `Domain: <domain>, Customers: <count>\n` per domain
stat, in report order. -/
def fileOutputSpec (dc : DomainsCount) : Str :=
  ("Total number of customers: ".data ++ natDecimal dc.TotalCount ++ ['\n']) ++
    (dc.DomainStats.map fun s =>
      "Domain: ".data ++ s.Name ++ ", Customers: ".data ++ natDecimal s.Count ++ ['\n']).flatten

/-! ### Character and case-folding lemmas -/

theorem char_eq_of_toNat_eq {a b : Char} (h : a.toNat = b.toNat) : a = b := by
  rw [← Char.ofNat_toNat a, ← Char.ofNat_toNat b, h]

theorem toNat_charOfNat {n : Nat} (h : n < 55296) : (Char.ofNat n).toNat = n := by
  rw [Char.ofNat, dif_pos (Or.inl h : Nat.isValidChar n)]
  rfl

theorem toLowerChar_toNat_of_upper {c : Char} (h : 65 ≤ c.toNat ∧ c.toNat ≤ 90) :
    (toLowerChar c).toNat = c.toNat + 32 := by
  unfold toLowerChar
  rw [if_pos h]
  exact toNat_charOfNat (by omega)

theorem toLowerChar_eq_self {c : Char} (h : ¬(65 ≤ c.toNat ∧ c.toNat ≤ 90)) :
    toLowerChar c = c := if_neg h

theorem toLowerChar_not_upper (c : Char) :
    ¬(65 ≤ (toLowerChar c).toNat ∧ (toLowerChar c).toNat ≤ 90) := by
  by_cases h : 65 ≤ c.toNat ∧ c.toNat ≤ 90
  · rw [toLowerChar_toNat_of_upper h]; omega
  · rw [toLowerChar_eq_self h]; exact h

theorem toLowerChar_idem (c : Char) : toLowerChar (toLowerChar c) = toLowerChar c :=
  toLowerChar_eq_self (toLowerChar_not_upper c)

theorem toLowerChar_ne_at {c : Char} (h : c ≠ '@') : toLowerChar c ≠ '@' := by
  intro hc
  by_cases hu : 65 ≤ c.toNat ∧ c.toNat ≤ 90
  · have h1 := toLowerChar_toNat_of_upper hu
    rw [hc] at h1
    have h2 : ('@' : Char).toNat = 64 := by decide
    omega
  · rw [toLowerChar_eq_self hu] at hc
    exact h hc

theorem toLower_idem (s : Str) : toLower (toLower s) = toLower s := by
  unfold toLower
  rw [List.map_map]
  exact List.map_congr_left fun c _ => toLowerChar_idem c

theorem at_notin_toLower {s : Str} (h : '@' ∉ s) : '@' ∉ toLower s := by
  intro hmem
  rcases List.mem_map.1 hmem with ⟨c, hc, hlc⟩
  exact toLowerChar_ne_at (fun hce => h (hce ▸ hc)) hlc

theorem toLower_eq_nil_iff {s : Str} : toLower s = [] ↔ s = [] := by
  unfold toLower
  simp

/-! ### Splitting on the first `@` -/

theorem splitFirstAt_eq_none {s : Str} : splitFirstAt s = none ↔ '@' ∉ s := by
  induction s with
  | nil => simp [splitFirstAt]
  | cons c rest ih =>
    by_cases hc : c = '@'
    · subst hc; simp [splitFirstAt]
    · simp [splitFirstAt, hc, Option.map_eq_none, ih, Ne.symm hc]

theorem splitFirstAt_eq_some {s : Str} : ∀ {l r : Str},
    splitFirstAt s = some (l, r) ↔ s = l ++ '@' :: r ∧ '@' ∉ l := by
  induction s with
  | nil =>
    intro l r
    constructor
    · intro h; exact absurd h (by simp [splitFirstAt])
    · intro ⟨h, _⟩; exact absurd h (by simp)
  | cons c rest ih =>
    intro l r
    by_cases hc : c = '@'
    · subst hc
      constructor
      · intro h
        rw [splitFirstAt, if_pos rfl] at h
        have hpair := Option.some.inj h
        have hl : ([] : Str) = l := congrArg Prod.fst hpair
        have hr : rest = r := congrArg Prod.snd hpair
        subst hl; subst hr
        simp
      · intro ⟨hs, hl⟩
        cases l with
        | nil => simp at hs; simp [splitFirstAt, hs]
        | cons x xs =>
          have hx : x = '@' := by
            have := congrArg (fun t => t.head?) hs
            simpa using this.symm
          rw [hx] at hl
          simp at hl
    · constructor
      · intro h
        rw [splitFirstAt, if_neg hc, Option.map_eq_some'] at h
        obtain ⟨⟨l', r'⟩, hsplit, heq⟩ := h
        have hl : c :: l' = l := congrArg Prod.fst heq
        have hr : r' = r := congrArg Prod.snd heq
        rcases (ih (l := l') (r := r')).1 hsplit with ⟨hs, hnl⟩
        subst hr
        subst hl
        refine ⟨by rw [hs]; rfl, ?_⟩
        simp [hnl, hc, Ne.symm hc]
      · intro ⟨hs, hl⟩
        cases l with
        | nil =>
          have : c = '@' := by
            have := congrArg (fun t => t.head?) hs
            simpa using this
          exact absurd this hc
        | cons x xs =>
          have hx : x = c := by
            have := congrArg (fun t => t.head?) hs
            simpa using this.symm
          subst hx
          have htail : rest = xs ++ '@' :: r := by
            have := congrArg List.tail hs
            simpa using this
          have hnl : '@' ∉ xs := fun hm => hl (List.mem_cons_of_mem _ hm)
          simp only [splitFirstAt, if_neg hc]
          rw [(ih).2 ⟨htail, hnl⟩]
          rfl

/-! ### Validity characterization of `extractDomain` -/

theorem extractDomain_none {s : Str} (h : splitFirstAt s = none) :
    extractDomain s = [] := by
  unfold extractDomain
  rw [h]

theorem extractDomain_some {s l r : Str} (h : splitFirstAt s = some (l, r)) :
    extractDomain s = if '@' ∈ r then [] else toLower r := by
  unfold extractDomain
  rw [h]

theorem extractDomain_ne_nil_iff {s : Str} :
    extractDomain s ≠ [] ↔
      ∃ l r, s = l ++ '@' :: r ∧ '@' ∉ l ∧ r ≠ [] ∧ '@' ∉ r := by
  cases h : splitFirstAt s with
  | none =>
    rw [extractDomain_none h]
    have hno := splitFirstAt_eq_none.1 h
    constructor
    · intro hne; exact absurd rfl hne
    · rintro ⟨l, r, hs, -, -, -⟩
      exfalso
      apply hno
      rw [hs]
      exact List.mem_append.2 (Or.inr (List.mem_cons_self _ _))
  | some p =>
    obtain ⟨l0, r0⟩ := p
    rw [extractDomain_some h]
    rcases splitFirstAt_eq_some.1 h with ⟨hs0, hl0⟩
    by_cases hr : '@' ∈ r0
    · rw [if_pos hr]
      constructor
      · intro hne; exact absurd rfl hne
      · rintro ⟨l, r, hs, hl, -, hrnot⟩
        have huniq : splitFirstAt s = some (l, r) := splitFirstAt_eq_some.2 ⟨hs, hl⟩
        rw [h] at huniq
        have hreq : r0 = r := congrArg Prod.snd (Option.some.inj huniq)
        exact absurd (hreq ▸ hr) hrnot
    · rw [if_neg hr]
      constructor
      · intro hne
        exact ⟨l0, r0, hs0, hl0, fun hnil => hne (by rw [hnil]; rfl), hr⟩
      · rintro ⟨l, r, hs, hl, hrne, -⟩
        have huniq : splitFirstAt s = some (l, r) := splitFirstAt_eq_some.2 ⟨hs, hl⟩
        rw [h] at huniq
        have hreq : r0 = r := congrArg Prod.snd (Option.some.inj huniq)
        intro hnil
        exact hrne (hreq ▸ toLower_eq_nil_iff.1 hnil)

theorem extractDomain_no_at {s : Str} (h : extractDomain s ≠ []) :
    '@' ∉ extractDomain s := by
  cases hsp : splitFirstAt s with
  | none => rw [extractDomain_none hsp] at h; exact absurd rfl h
  | some p =>
    obtain ⟨l0, r0⟩ := p
    rw [extractDomain_some hsp] at h ⊢
    by_cases hr : '@' ∈ r0
    · rw [if_pos hr] at h; exact absurd rfl h
    · rw [if_neg hr]
      exact at_notin_toLower hr

theorem extractDomain_lower_fixed (s : Str) :
    toLower (extractDomain s) = extractDomain s := by
  cases hsp : splitFirstAt s with
  | none => rw [extractDomain_none hsp]; rfl
  | some p =>
    obtain ⟨l0, r0⟩ := p
    rw [extractDomain_some hsp]
    by_cases hr : '@' ∈ r0
    · rw [if_pos hr]; rfl
    · rw [if_neg hr]; exact toLower_idem r0

/-! ### The Go string order -/

theorem strLt_irrefl : ∀ s : Str, strLt s s = false
  | [] => rfl
  | c :: cs => by simp [strLt, strLt_irrefl cs]

theorem strLt_asymm : ∀ {a b : Str}, strLt a b = true → strLt b a = false
  | [], [], h => by simp [strLt] at h
  | [], _ :: _, _ => rfl
  | _ :: _, [], h => by simp [strLt] at h
  | a :: as, b :: bs, h => by
    by_cases h1 : a.toNat < b.toNat
    · have h2 : ¬b.toNat < a.toNat := by omega
      simp only [strLt, if_neg h2, if_pos h1]
    · by_cases h2 : b.toNat < a.toNat
      · simp only [strLt, if_neg h1, if_pos h2] at h
        exact absurd h (by simp)
      · simp only [strLt, if_neg h1, if_neg h2] at h ⊢
        exact strLt_asymm h

theorem strLt_trans : ∀ {a b c : Str},
    strLt a b = true → strLt b c = true → strLt a c = true
  | [], [], _, h1, _ => by simp [strLt] at h1
  | [], _ :: _, [], _, h2 => by simp [strLt] at h2
  | [], _ :: _, _ :: _, _, _ => rfl
  | _ :: _, [], _, h1, _ => by simp [strLt] at h1
  | _ :: _, _ :: _, [], _, h2 => by simp [strLt] at h2
  | a :: as, b :: bs, c :: cs, h1, h2 => by
    by_cases hab : a.toNat < b.toNat <;> by_cases hbc : b.toNat < c.toNat
    · have : a.toNat < c.toNat := by omega
      simp only [strLt, if_pos this]
    · by_cases hcb : c.toNat < b.toNat
      · simp only [strLt, if_neg hbc, if_pos hcb] at h2
        exact absurd h2 (by simp)
      · have hbceq : b.toNat = c.toNat := by omega
        have : a.toNat < c.toNat := by omega
        simp only [strLt, if_pos this]
    · by_cases hba : b.toNat < a.toNat
      · simp only [strLt, if_neg hab, if_pos hba] at h1
        exact absurd h1 (by simp)
      · have : a.toNat < c.toNat := by omega
        simp only [strLt, if_pos this]
    · by_cases hba : b.toNat < a.toNat
      · simp only [strLt, if_neg hab, if_pos hba] at h1
        exact absurd h1 (by simp)
      · by_cases hcb : c.toNat < b.toNat
        · simp only [strLt, if_neg hbc, if_pos hcb] at h2
          exact absurd h2 (by simp)
        · simp only [strLt, if_neg hab, if_neg hba] at h1
          simp only [strLt, if_neg hbc, if_neg hcb] at h2
          have hac : ¬a.toNat < c.toNat := by omega
          have hca : ¬c.toNat < a.toNat := by omega
          simp only [strLt, if_neg hac, if_neg hca]
          exact strLt_trans h1 h2

theorem strLt_connex : ∀ {a b : Str},
    strLt a b = false → strLt b a = false → a = b
  | [], [], _, _ => rfl
  | [], _ :: _, h1, _ => by simp [strLt] at h1
  | _ :: _, [], _, h2 => by simp [strLt] at h2
  | a :: as, b :: bs, h1, h2 => by
    by_cases hab : a.toNat < b.toNat
    · simp only [strLt, if_pos hab] at h1
      exact absurd h1 (by simp)
    · by_cases hba : b.toNat < a.toNat
      · simp only [strLt, if_pos hba] at h2
        exact absurd h2 (by simp)
      · have hchar : a = b := char_eq_of_toNat_eq (by omega)
        subst hchar
        simp only [strLt, if_neg hab, if_neg hba] at h1 h2
        rw [strLt_connex h1 h2]

theorem strLt_cases (a b : Str) : strLt a b = true ∨ a = b ∨ strLt b a = true := by
  by_cases h1 : strLt a b = true
  · exact Or.inl h1
  · by_cases h2 : strLt b a = true
    · exact Or.inr (Or.inr h2)
    · exact Or.inr (Or.inl (strLt_connex (by simpa using h1) (by simpa using h2)))

/-! ### The comparator handed to `sort.Slice` -/

/-- Strict name order between stats. -/
def statLtStrict (x y : DomainStat) : Prop := strLt x.Name y.Name = true

instance : DecidableRel statLtStrict := fun _ _ => instDecidableEqBool _ _

instance : IsTotal DomainStat statLe :=
  ⟨fun x y => by
    unfold statLe
    by_cases h : strLt y.Name x.Name = true
    · exact Or.inr (strLt_asymm h)
    · exact Or.inl (by simpa using h)⟩

instance : IsTrans DomainStat statLe :=
  ⟨fun x y z hxy hyz => by
    unfold statLe at hxy hyz ⊢
    by_contra hne
    have hz : strLt z.Name x.Name = true := by simpa using hne
    have h1 : strLt x.Name y.Name = true ∨ x.Name = y.Name := by
      rcases strLt_cases x.Name y.Name with h | h | h
      · exact Or.inl h
      · exact Or.inr h
      · rw [h] at hxy; exact absurd hxy (by simp)
    have h2 : strLt y.Name z.Name = true ∨ y.Name = z.Name := by
      rcases strLt_cases y.Name z.Name with h | h | h
      · exact Or.inl h
      · exact Or.inr h
      · rw [h] at hyz; exact absurd hyz (by simp)
    rcases h1 with h1 | h1 <;> rcases h2 with h2 | h2
    · rw [strLt_asymm (strLt_trans h1 h2)] at hz
      exact absurd hz (by simp)
    · rw [← h2, strLt_asymm h1] at hz
      exact absurd hz (by simp)
    · rw [h1, strLt_asymm h2] at hz
      exact absurd hz (by simp)
    · rw [h1, h2, strLt_irrefl] at hz
      exact absurd hz (by simp)⟩

instance : IsAntisymm DomainStat statLtStrict :=
  ⟨fun x y h1 h2 => by
    unfold statLtStrict at h1 h2
    rw [strLt_asymm h1] at h2
    exact absurd h2 (by simp)⟩

theorem createStats_sorted (m : List (Str × Nat)) :
    List.Pairwise statLe (createStats m) :=
  List.sorted_insertionSort statLe _

theorem createStats_perm (m : List (Str × Nat)) :
    (createStats m).Perm (m.map fun p => ⟨p.1, p.2⟩) :=
  List.perm_insertionSort _ _

theorem map_name_mk (m : List (Str × Nat)) :
    (m.map fun p => (⟨p.1, p.2⟩ : DomainStat)).map DomainStat.Name = m.map Prod.fst := by
  rw [List.map_map]
  exact List.map_congr_left fun p _ => rfl

theorem pairwise_strict_of_sorted {l : List DomainStat}
    (hs : List.Pairwise statLe l) (hn : (l.map DomainStat.Name).Nodup) :
    List.Pairwise statLtStrict l := by
  have hne : l.Pairwise fun x y => x.Name ≠ y.Name := List.pairwise_map.1 hn
  refine (hs.and hne).imp ?_
  intro x y h
  obtain ⟨hle, hneq⟩ := h
  unfold statLe at hle
  unfold statLtStrict
  rcases strLt_cases x.Name y.Name with h | h | h
  · exact h
  · exact absurd h hneq
  · rw [h] at hle; exact absurd hle (by simp)

theorem eq_of_perm_strict {l₁ l₂ : List DomainStat} (hp : l₁.Perm l₂)
    (h1 : List.Pairwise statLtStrict l₁) (h2 : List.Pairwise statLtStrict l₂) :
    l₁ = l₂ :=
  List.eq_of_perm_of_sorted hp h1 h2

/-! ### The aggregate map -/

theorem incr_fst (d : Str) (p : Str × Nat) : (incr d p).1 = p.1 := by
  unfold incr; split <;> rfl

theorem keys_map_incr (d : Str) (m : List (Str × Nat)) :
    (m.map (incr d)).map Prod.fst = m.map Prod.fst := by
  rw [List.map_map]
  exact List.map_congr_left fun p _ => incr_fst d p

theorem keys_bump (m : List (Str × Nat)) (d : Str) :
    (bump m d).map Prod.fst =
      if d ∈ m.map Prod.fst then m.map Prod.fst else m.map Prod.fst ++ [d] := by
  unfold bump
  split
  · exact keys_map_incr d m
  · simp

theorem nodup_keys_bump {m : List (Str × Nat)} (h : (m.map Prod.fst).Nodup) (d : Str) :
    ((bump m d).map Prod.fst).Nodup := by
  rw [keys_bump]
  split
  · exact h
  · rename_i hd
    refine h.append (List.nodup_singleton d) ?_
    intro a ha hb
    rw [List.mem_singleton] at hb
    subst hb
    exact hd ha

theorem map_incr_of_not_mem {m : List (Str × Nat)} {d : Str}
    (h : d ∉ m.map Prod.fst) : m.map (incr d) = m := by
  induction m with
  | nil => rfl
  | cons p rest ih =>
    simp only [List.map_cons, List.mem_cons] at h ⊢
    push_neg at h
    rw [ih h.2]
    have : incr d p = p := by unfold incr; rw [if_neg (Ne.symm h.1)]
    rw [this]

/-- Total of the counts stored in the aggregate map. -/
def sumCounts (m : List (Str × Nat)) : Nat := (m.map Prod.snd).sum

theorem sumCounts_map_incr {m : List (Str × Nat)} {d : Str}
    (hnd : (m.map Prod.fst).Nodup) (hmem : d ∈ m.map Prod.fst) :
    sumCounts (m.map (incr d)) = sumCounts m + 1 := by
  induction m with
  | nil => simp at hmem
  | cons p rest ih =>
    simp only [List.map_cons, List.nodup_cons, List.mem_cons] at hnd hmem
    rcases hmem with h1 | h1
    · have hrest : d ∉ rest.map Prod.fst := h1 ▸ hnd.1
      have hp : incr d p = (p.1, p.2 + 1) := by unfold incr; rw [if_pos h1.symm]
      simp only [sumCounts, List.map_cons, List.sum_cons,
        map_incr_of_not_mem hrest, hp]
      omega
    · have hne : p.1 ≠ d := fun he => hnd.1 (by rw [he]; exact h1)
      have hp : incr d p = p := by unfold incr; rw [if_neg hne]
      have hrec := ih hnd.2 h1
      simp only [sumCounts, List.map_cons, List.sum_cons, hp] at hrec ⊢
      omega

theorem sumCounts_bump {m : List (Str × Nat)} (hnd : (m.map Prod.fst).Nodup) (d : Str) :
    sumCounts (bump m d) = sumCounts m + 1 := by
  unfold bump
  split
  · exact sumCounts_map_incr hnd (by assumption)
  · simp [sumCounts]

theorem bump_perm {m m' : List (Str × Nat)} (h : m.Perm m') (d : Str) :
    (bump m d).Perm (bump m' d) := by
  have hkeys : d ∈ m.map Prod.fst ↔ d ∈ m'.map Prod.fst := (h.map Prod.fst).mem_iff
  unfold bump
  by_cases hd : d ∈ m.map Prod.fst
  · rw [if_pos hd, if_pos (hkeys.1 hd)]
    exact h.map (incr d)
  · rw [if_neg hd, if_neg fun hd' => hd (hkeys.2 hd')]
    exact h.append_right [(d, 1)]

theorem bump_of_mem {m : List (Str × Nat)} {d : Str} (h : d ∈ m.map Prod.fst) :
    bump m d = m.map (incr d) := by
  unfold bump; rw [if_pos h]

theorem bump_of_not_mem {m : List (Str × Nat)} {d : Str} (h : d ∉ m.map Prod.fst) :
    bump m d = m ++ [(d, 1)] := by
  unfold bump; rw [if_neg h]

theorem incr_comm_apply {a b : Str} (hab : a ≠ b) (p : Str × Nat) :
    incr b (incr a p) = incr a (incr b p) := by
  by_cases h1 : p.1 = a <;> by_cases h2 : p.1 = b
  · exact absurd (h1.symm.trans h2) hab
  · simp [incr, h1, h2, hab, Ne.symm hab]
  · simp [incr, h1, h2, hab, Ne.symm hab]
  · simp [incr, h1, h2, hab, Ne.symm hab]

theorem bump_comm (m : List (Str × Nat)) (a b : Str) :
    (bump (bump m a) b).Perm (bump (bump m b) a) := by
  by_cases hab : a = b
  · subst hab; exact List.Perm.refl _
  by_cases ha : a ∈ m.map Prod.fst <;> by_cases hb : b ∈ m.map Prod.fst
  · have hka : b ∈ (bump m a).map Prod.fst := by
      rw [bump_of_mem ha, keys_map_incr]; exact hb
    have hkb : a ∈ (bump m b).map Prod.fst := by
      rw [bump_of_mem hb, keys_map_incr]; exact ha
    rw [bump_of_mem hka, bump_of_mem hkb, bump_of_mem ha, bump_of_mem hb]
    have heq : List.map (incr b) (List.map (incr a) m) =
        List.map (incr a) (List.map (incr b) m) := by
      rw [List.map_map, List.map_map]
      exact List.map_congr_left fun p _ => incr_comm_apply hab p
    rw [heq]
  · have hkb : b ∉ (bump m a).map Prod.fst := by
      rw [bump_of_mem ha, keys_map_incr]; exact hb
    have hka : a ∈ (bump m b).map Prod.fst := by
      rw [bump_of_not_mem hb, List.map_append]
      exact List.mem_append.2 (Or.inl ha)
    rw [bump_of_not_mem hkb, bump_of_mem hka, bump_of_mem ha, bump_of_not_mem hb,
      List.map_append]
    have hb1 : incr a (b, 1) = (b, 1) := by
      unfold incr; rw [if_neg fun h => hab h.symm]
    simp only [List.map_cons, List.map_nil, hb1]
    exact List.Perm.refl _
  · have hka : a ∉ (bump m b).map Prod.fst := by
      rw [bump_of_mem hb, keys_map_incr]; exact ha
    have hkb : b ∈ (bump m a).map Prod.fst := by
      rw [bump_of_not_mem ha, List.map_append]
      exact List.mem_append.2 (Or.inl hb)
    rw [bump_of_mem hkb, bump_of_not_mem hka, bump_of_not_mem ha, bump_of_mem hb,
      List.map_append]
    have ha1 : incr b (a, 1) = (a, 1) := by
      unfold incr; rw [if_neg hab]
    simp only [List.map_cons, List.map_nil, ha1]
    exact List.Perm.refl _
  · have hkb : b ∉ (bump m a).map Prod.fst := by
      rw [bump_of_not_mem ha, List.map_append]
      intro hmem
      rcases List.mem_append.1 hmem with h | h
      · exact hb h
      · rw [List.map_cons, List.map_nil, List.mem_singleton] at h
        exact hab h.symm
    have hka : a ∉ (bump m b).map Prod.fst := by
      rw [bump_of_not_mem hb, List.map_append]
      intro hmem
      rcases List.mem_append.1 hmem with h | h
      · exact ha h
      · rw [List.map_cons, List.map_nil, List.mem_singleton] at h
        exact hab h
    rw [bump_of_not_mem hkb, bump_of_not_mem hka, bump_of_not_mem ha,
      bump_of_not_mem hb, List.append_assoc, List.append_assoc]
    exact List.Perm.append_left m (List.Perm.swap (b, 1) (a, 1) [])

theorem foldl_bump_perm_acc {m m' : List (Str × Nat)} (h : m.Perm m') :
    ∀ ds : List Str, (ds.foldl bump m).Perm (ds.foldl bump m')
  | [] => h
  | d :: ds => foldl_bump_perm_acc (bump_perm h d) ds

theorem foldl_bump_perm_input {ds ds' : List Str} (h : ds.Perm ds') :
    ∀ m, (ds.foldl bump m).Perm (ds'.foldl bump m) := by
  induction h with
  | nil => intro _; exact List.Perm.refl _
  | cons x _ ih => intro m; exact ih (bump m x)
  | swap x y l => intro m; exact foldl_bump_perm_acc (bump_comm m y x) l
  | trans _ _ ih1 ih2 => intro m; exact (ih1 m).trans (ih2 m)

theorem nodup_keys_foldl {m : List (Str × Nat)} (h : (m.map Prod.fst).Nodup) :
    ∀ ds : List Str, (((ds.foldl bump m)).map Prod.fst).Nodup
  | [] => h
  | d :: ds => nodup_keys_foldl (nodup_keys_bump h d) ds

theorem sumCounts_foldl {m : List (Str × Nat)} (h : (m.map Prod.fst).Nodup) :
    ∀ ds : List Str, sumCounts (ds.foldl bump m) = sumCounts m + ds.length
  | [] => by simp
  | d :: ds => by
    have hrec := sumCounts_foldl (nodup_keys_bump h d) ds
    simp only [List.foldl_cons, List.length_cons, hrec, sumCounts_bump h d]
    omega

theorem aggregateDomains_eq (ds : List Str) :
    aggregateDomains ds = (ds.foldl bump [], ds.length) := by
  have h : ∀ (ds : List Str) (m : List (Str × Nat)) (t : Nat),
      ds.foldl (fun acc d => (bump acc.1 d, acc.2 + 1)) (m, t) =
        (ds.foldl bump m, t + ds.length) := by
    intro ds
    induction ds with
    | nil => intro m t; simp
    | cons d rest ih =>
      intro m t
      simp only [List.foldl_cons, ih, List.length_cons]
      congr 1
      omega
  unfold aggregateDomains
  rw [h ds [] 0]
  simp

theorem nodup_names_createStats {m : List (Str × Nat)}
    (h : (m.map Prod.fst).Nodup) :
    ((createStats m).map DomainStat.Name).Nodup := by
  have hperm : ((createStats m).map DomainStat.Name).Perm (m.map Prod.fst) := by
    have hp := (createStats_perm m).map DomainStat.Name
    rwa [map_name_mk] at hp
  exact hperm.nodup_iff.2 h

theorem createStats_strict {m : List (Str × Nat)} (h : (m.map Prod.fst).Nodup) :
    List.Pairwise statLtStrict (createStats m) :=
  pairwise_strict_of_sorted (createStats_sorted m) (nodup_names_createStats h)

theorem createStats_eq_of_perm {m m' : List (Str × Nat)} (hp : m.Perm m')
    (h : (m.map Prod.fst).Nodup) :
    createStats m = createStats m' := by
  have h' : (m'.map Prod.fst).Nodup := ((hp.map Prod.fst).nodup_iff).1 h
  have hperm : (createStats m).Perm (createStats m') :=
    (createStats_perm m).trans
      (((hp.map fun p => (⟨p.1, p.2⟩ : DomainStat))).trans (createStats_perm m').symm)
  exact eq_of_perm_strict hperm (createStats_strict h) (createStats_strict h')

theorem statsSum_createStats (m : List (Str × Nat)) :
    ((createStats m).map DomainStat.Count).sum = sumCounts m := by
  have hp := (createStats_perm m).map DomainStat.Count
  have he : ((m.map fun p => (⟨p.1, p.2⟩ : DomainStat)).map DomainStat.Count) =
      m.map Prod.snd := by
    rw [List.map_map]
    exact List.map_congr_left fun p _ => rfl
  rw [he] at hp
  exact hp.sum_eq

/-! ### Membership invariant carried through aggregation -/

theorem incr_snd_ge (d : Str) (q : Str × Nat) : q.2 ≤ (incr d q).2 := by
  unfold incr
  split
  · exact Nat.le_succ _
  · exact Nat.le_refl _

theorem mem_bump {P : Str → Prop} {m : List (Str × Nat)} {d : Str}
    (hm : ∀ p ∈ m, P p.1 ∧ 1 ≤ p.2) (hd : P d) :
    ∀ p ∈ bump m d, P p.1 ∧ 1 ≤ p.2 := by
  intro p hp
  unfold bump at hp
  split at hp
  · rcases List.mem_map.1 hp with ⟨q, hq, hpq⟩
    have hq' := hm q hq
    subst hpq
    exact ⟨incr_fst d q ▸ hq'.1, Nat.le_trans hq'.2 (incr_snd_ge d q)⟩
  · rcases List.mem_append.1 hp with h | h
    · exact hm p h
    · rw [List.mem_singleton] at h
      subst h
      exact ⟨hd, Nat.le_refl 1⟩

theorem mem_foldl_bump {P : Str → Prop} :
    ∀ (ds : List Str) (m : List (Str × Nat)),
      (∀ p ∈ m, P p.1 ∧ 1 ≤ p.2) → (∀ d ∈ ds, P d) →
      ∀ p ∈ ds.foldl bump m, P p.1 ∧ 1 ≤ p.2
  | [], _, hm, _ => hm
  | d :: ds, m, hm, hd =>
    mem_foldl_bump ds (bump m d)
      (mem_bump hm (hd d (List.mem_cons_self d ds)))
      (fun x hx => hd x (List.mem_cons_of_mem d hx))

/-! ### The record source as a filter -/

/-- The email field the record source emits for one row, if any. -/
def emailOfRow : RawRow → Option Str
  | RawRow.bad => none
  | RawRow.ok fields =>
    if fields.length ≤ EMAIL_IDX then none else some (fields.getD EMAIL_IDX [])

theorem csvReader_eq_filterMap : ∀ rows : List RawRow,
    csvReader rows = rows.filterMap emailOfRow
  | [] => rfl
  | RawRow.bad :: rest => by
    show csvReader rest = List.filterMap emailOfRow (RawRow.bad :: rest)
    rw [List.filterMap_cons]
    exact csvReader_eq_filterMap rest
  | RawRow.ok fields :: rest => by
    rw [List.filterMap_cons]
    by_cases h : fields.length ≤ EMAIL_IDX
    · show (if fields.length ≤ EMAIL_IDX then csvReader rest
          else fields.getD EMAIL_IDX [] :: csvReader rest) = _
      rw [if_pos h]
      have he : emailOfRow (RawRow.ok fields) = none := by
        show (if fields.length ≤ EMAIL_IDX then (none : Option Str)
            else some (fields.getD EMAIL_IDX [])) = none
        rw [if_pos h]
      rw [he]
      exact csvReader_eq_filterMap rest
    · show (if fields.length ≤ EMAIL_IDX then csvReader rest
          else fields.getD EMAIL_IDX [] :: csvReader rest) = _
      rw [if_neg h]
      have he : emailOfRow (RawRow.ok fields) = some (fields.getD EMAIL_IDX []) := by
        show (if fields.length ≤ EMAIL_IDX then (none : Option Str)
            else some (fields.getD EMAIL_IDX [])) = some (fields.getD EMAIL_IDX [])
        rw [if_neg h]
      rw [he, csvReader_eq_filterMap rest]

/-! ### Equation lemmas for the orchestration -/

theorem processCsv_nil (numWorkers : Nat) :
    processCsv [] numWorkers = .error (.headerRead .eof) := rfl

theorem processCsv_bad (rest : List RawRow) (numWorkers : Nat) :
    processCsv (RawRow.bad :: rest) numWorkers = .error (.headerRead .parse) := rfl

theorem processCsv_ok (hdr : List Str) (rest : List RawRow) (numWorkers : Nat) :
    processCsv (RawRow.ok hdr :: rest) numWorkers =
      .ok ((aggregateDomains (extractDomains (csvReader rest))).1,
        (aggregateDomains (extractDomains (csvReader rest))).2) := rfl

theorem ProcessFile_error {rows : List RawRow} {numWorkers : Nat} {e : GoError}
    (h : processCsv rows numWorkers = .error e) :
    ProcessFile rows numWorkers = (⟨[], 0⟩, some e) := by
  unfold ProcessFile
  rw [h]

theorem ProcessFile_ok {rows : List RawRow} {numWorkers : Nat}
    {m : List (Str × Nat)} {total : Nat}
    (h : processCsv rows numWorkers = .ok (m, total)) :
    ProcessFile rows numWorkers = (⟨createStats m, total⟩, none) := by
  unfold ProcessFile
  rw [h]

/-! ### The file writer -/

theorem foldl_append_lines : ∀ (l : List DomainStat) (acc : Str),
    l.foldl (fun a s => a ++ domainLine s) acc = acc ++ (l.map domainLine).flatten
  | [], acc => by simp
  | s :: l, acc => by
    simp only [List.foldl_cons, List.map_cons, List.flatten_cons]
    rw [foldl_append_lines l (acc ++ domainLine s), List.append_assoc]

/-! ## The claims -/

/-- One data row of the end-to-end fixture, with the email at column index 2. -/
def sampleRow (email : String) : RawRow :=
  RawRow.ok ["first".data, "last".data, email.data, "gender".data, "ip".data]

/-- Header row plus the five fixture rows of the end-to-end property. -/
def sampleCsv : List RawRow :=
  [RawRow.ok ["first_name".data, "last_name".data, "email".data,
      "gender".data, "ip_address".data],
    sampleRow "mhernandez0@github.io",
    sampleRow "bortiz1@github.io",
    sampleRow "dhenry2@github.io",
    sampleRow "ghenderson6@acquirethisname.com",
    sampleRow "nallen8@cnet.com"]

/-- C1, counterexample: the claim says `extractDomain "@b.com"` is invalid
(empty local part), but the code never checks the local part:
`strings.SplitN("@b.com", "@", 2)` gives `["", "b.com"]`, the length is 2,
the right part has no further `@`, so `"b.com"` is returned. -/
theorem claim_C1_counterexample :
    extractDomain "@b.com".data = "b.com".data ∧ "b.com".data ≠ ([] : Str) := by
  refine ⟨?_, ?_⟩ <;> decide

/-- C1, amended: `extractDomain` returns a non-empty domain iff splitting
the input on the first `@` yields a right part that is non-empty and
contains no further `@`; the left (local) part may be empty, so
`extractDomain "@b.com" = "b.com"`. -/
theorem claim_C1_amended :
    (∀ s : Str, extractDomain s ≠ [] ↔
      ∃ l r, s = l ++ '@' :: r ∧ '@' ∉ l ∧ r ≠ [] ∧ '@' ∉ r) ∧
    extractDomain "@b.com".data = "b.com".data :=
  ⟨fun _ => extractDomain_ne_nil_iff, by decide⟩

/-- C2: processing the header row plus the five fixture rows yields
TotalCount 5 and the sorted stats
[(acquirethisname.com, 1), (cnet.com, 1), (github.io, 3)], for any worker
count. -/
theorem claim_C2_end_to_end (numWorkers : Nat) :
    ProcessFile sampleCsv numWorkers =
      (⟨[⟨"acquirethisname.com".data, 1⟩, ⟨"cnet.com".data, 1⟩,
        ⟨"github.io".data, 3⟩], 5⟩, none) := rfl

/-- C3: on empty input the header read fails with the wrapping header
error, which differs from the bare `io.EOF` value, and the returned result
is the no-data value (zero total, no stats). -/
theorem claim_C3_header_error (numWorkers : Nat) :
    processCsv ([] : List RawRow) numWorkers =
      .error (.headerRead .eof) ∧
    GoError.headerRead GoError.eof ≠ GoError.eof ∧
    ProcessFile ([] : List RawRow) numWorkers =
      (⟨[], 0⟩, some (.headerRead .eof)) :=
  ⟨rfl, by decide, rfl⟩

/-- C4: the five pure test cases of `extractDomain`: case folding of the
domain part, and the empty sentinel for a missing `@`, a second `@` in the
domain part, an empty domain part, and the empty string. -/
theorem claim_C4_extract_cases :
    extractDomain "user@Example.COM".data = "example.com".data ∧
    extractDomain "no-at-sign".data = [] ∧
    extractDomain "a@@b.com".data = [] ∧
    extractDomain "a@".data = [] ∧
    extractDomain "".data = [] := by
  refine ⟨?_, ?_, ?_, ?_, ?_⟩ <;> decide

/-- C5: the reported TotalCount equals the sum of the per-domain counts,
both for every `ProcessFile` result and for the aggregator after any
sequence of domains. -/
theorem claim_C5_total_is_sum :
    (∀ (rows : List RawRow) (numWorkers : Nat),
      (((ProcessFile rows numWorkers).1.DomainStats).map DomainStat.Count).sum =
        (ProcessFile rows numWorkers).1.TotalCount) ∧
    (∀ ds : List Str,
      sumCounts (aggregateDomains ds).1 = (aggregateDomains ds).2) := by
  have hagg : ∀ ds : List Str,
      sumCounts (aggregateDomains ds).1 = (aggregateDomains ds).2 := by
    intro ds
    rw [aggregateDomains_eq]
    show sumCounts (ds.foldl bump []) = ds.length
    rw [@sumCounts_foldl [] List.nodup_nil ds]
    simp [sumCounts]
  refine ⟨?_, hagg⟩
  intro rows nw
  cases rows with
  | nil => rw [ProcessFile_error (processCsv_nil nw)]; rfl
  | cons r rest =>
    cases r with
    | bad => rw [ProcessFile_error (processCsv_bad rest nw)]; rfl
    | ok hdr =>
      rw [ProcessFile_ok (processCsv_ok hdr rest nw)]
      show ((createStats (aggregateDomains (extractDomains (csvReader rest))).1).map
          DomainStat.Count).sum =
        (aggregateDomains (extractDomains (csvReader rest))).2
      rw [statsSum_createStats]
      exact hagg _

/-- C6: for an aggregate map with distinct keys, the report builder emits
exactly one stat per map entry (a permutation of the entries, counts
preserved) and the result is strictly ascending by name in the byte-wise
string order. -/
theorem claim_C6_create_stats (m : List (Str × Nat))
    (h : (m.map Prod.fst).Nodup) :
    (createStats m).Perm (m.map fun p => ⟨p.1, p.2⟩) ∧
    List.Pairwise statLtStrict (createStats m) :=
  ⟨createStats_perm m, createStats_strict h⟩

/-- Witness for C6 at the concrete two-entry map [(b, 2), (a, 1)]. -/
theorem claim_C6_witness :
    ((([(("b".data : Str), 2), ("a".data, 1)]).map Prod.fst).Nodup) ∧
    ((createStats [("b".data, 2), ("a".data, 1)]).Perm
      ([(("b".data : Str), 2), ("a".data, 1)].map fun p => ⟨p.1, p.2⟩) ∧
    List.Pairwise statLtStrict (createStats [("b".data, 2), ("a".data, 1)])) :=
  ⟨by decide, claim_C6_create_stats _ (by decide)⟩

/-- C7: the bytes written by the file writer are exactly the header line
`Total number of customers: <N>\n` followed by one
`Domain: <name>, Customers: <count>\n` line per stat in report order; for
the empty report the content is exactly the header line for 0. -/
theorem claim_C7_file_output :
    (∀ dc : DomainsCount, writeFileContent dc = fileOutputSpec dc) ∧
    writeFileContent ⟨[], 0⟩ = "Total number of customers: 0\n".data := by
  constructor
  · intro dc
    unfold writeFileContent fileOutputSpec
    rw [foldl_append_lines]
    rfl
  · decide

/-- C8: the record source reads column index 2 (`EMAIL_IDX`); a row that
fails to parse or has at most 2 fields is skipped while the remaining
rows are still processed, and a run whose header was read always
succeeds. -/
theorem claim_C8_per_row_errors :
    (∀ rows : List RawRow, csvReader rows = rows.filterMap emailOfRow) ∧
    (∀ rest : List RawRow, csvReader (RawRow.bad :: rest) = csvReader rest) ∧
    (∀ (fields : List Str) (rest : List RawRow), fields.length ≤ EMAIL_IDX →
      csvReader (RawRow.ok fields :: rest) = csvReader rest) ∧
    (∀ (fields : List Str) (rest : List RawRow), EMAIL_IDX < fields.length →
      csvReader (RawRow.ok fields :: rest) =
        fields.getD EMAIL_IDX [] :: csvReader rest) ∧
    (∀ (hdr : List Str) (rest : List RawRow) (numWorkers : Nat),
      ∃ m total, processCsv (RawRow.ok hdr :: rest) numWorkers =
        Except.ok (m, total)) := by
  refine ⟨csvReader_eq_filterMap, fun rest => rfl, ?_, ?_, ?_⟩
  · intro fields rest h
    show (if fields.length ≤ EMAIL_IDX then csvReader rest
        else fields.getD EMAIL_IDX [] :: csvReader rest) = csvReader rest
    rw [if_pos h]
  · intro fields rest h
    show (if fields.length ≤ EMAIL_IDX then csvReader rest
        else fields.getD EMAIL_IDX [] :: csvReader rest) =
      fields.getD EMAIL_IDX [] :: csvReader rest
    rw [if_neg (Nat.not_le.2 h)]
  · intro hdr rest nw
    exact ⟨_, _, processCsv_ok hdr rest nw⟩

/-- Witness for C8: a short row is skipped, a full row yields its third
field. -/
theorem claim_C8_witness :
    ((["x".data] : List Str).length ≤ EMAIL_IDX ∧
      csvReader [RawRow.ok ["x".data]] = csvReader []) ∧
    (EMAIL_IDX < (["a".data, "b".data, "c".data] : List Str).length ∧
      csvReader [RawRow.ok ["a".data, "b".data, "c".data]] =
        (["a".data, "b".data, "c".data] : List Str).getD EMAIL_IDX [] ::
          csvReader []) :=
  ⟨⟨by decide, claim_C8_per_row_errors.2.2.1 ["x".data] [] (by decide)⟩,
   ⟨by decide, claim_C8_per_row_errors.2.2.2.1 ["a".data, "b".data, "c".data] []
      (by decide)⟩⟩

/-- C9: permuting the data rows (header excluded) yields the identical
report, as does any permutation of the order in which domains reach the
aggregator, and the worker count does not enter the result. -/
theorem claim_C9_order_independence (hdr : List Str) (rows rows' : List RawRow)
    (ds ds' : List Str) (numWorkers numWorkers' : Nat)
    (hrows : rows.Perm rows') (hds : ds.Perm ds') :
    ProcessFile (RawRow.ok hdr :: rows) numWorkers =
      ProcessFile (RawRow.ok hdr :: rows') numWorkers' ∧
    createStats (aggregateDomains ds).1 = createStats (aggregateDomains ds').1 ∧
    (aggregateDomains ds).2 = (aggregateDomains ds').2 := by
  have hmain : ∀ {xs ys : List Str}, xs.Perm ys →
      createStats (aggregateDomains xs).1 = createStats (aggregateDomains ys).1 := by
    intro xs ys h
    rw [aggregateDomains_eq, aggregateDomains_eq]
    exact createStats_eq_of_perm (foldl_bump_perm_input h [])
      (@nodup_keys_foldl [] List.nodup_nil xs)
  have htot : ∀ {xs ys : List Str}, xs.Perm ys →
      (aggregateDomains xs).2 = (aggregateDomains ys).2 := by
    intro xs ys h
    rw [aggregateDomains_eq, aggregateDomains_eq]
    exact h.length_eq
  have hdom : (extractDomains (csvReader rows)).Perm
      (extractDomains (csvReader rows')) := by
    unfold extractDomains
    rw [csvReader_eq_filterMap, csvReader_eq_filterMap]
    exact (hrows.filterMap emailOfRow).filterMap domainOfEmail
  refine ⟨?_, hmain hds, htot hds⟩
  rw [ProcessFile_ok (processCsv_ok hdr rows numWorkers),
    ProcessFile_ok (processCsv_ok hdr rows' numWorkers')]
  rw [hmain hdom, htot hdom]

/-- Witness for C9 at a concrete two-row shuffle, a concrete two-domain
shuffle, and worker counts 1 versus 8. -/
theorem claim_C9_witness :
    (([sampleRow "x@q.com", RawRow.bad] : List RawRow).Perm
      [RawRow.bad, sampleRow "x@q.com"] ∧
    (["q.com".data, "r.com".data] : List Str).Perm
      ["r.com".data, "q.com".data]) ∧
    (ProcessFile (RawRow.ok [] :: [sampleRow "x@q.com", RawRow.bad]) 1 =
      ProcessFile (RawRow.ok [] :: [RawRow.bad, sampleRow "x@q.com"]) 8 ∧
    createStats (aggregateDomains ["q.com".data, "r.com".data]).1 =
      createStats (aggregateDomains ["r.com".data, "q.com".data]).1 ∧
    (aggregateDomains ["q.com".data, "r.com".data]).2 =
      (aggregateDomains ["r.com".data, "q.com".data]).2) :=
  ⟨⟨by decide, by decide⟩,
    claim_C9_order_independence [] [sampleRow "x@q.com", RawRow.bad]
      [RawRow.bad, sampleRow "x@q.com"] ["q.com".data, "r.com".data]
      ["r.com".data, "q.com".data] 1 8 (by decide) (by decide)⟩

/-- C10: a non-empty `extractDomain` result contains no `@` and is fixed
by lowercasing, and every stat of every report has a name with both
properties and a count of at least 1. -/
theorem claim_C10_invariants :
    (∀ s : Str, extractDomain s ≠ [] →
      '@' ∉ extractDomain s ∧ toLower (extractDomain s) = extractDomain s) ∧
    (∀ (rows : List RawRow) (numWorkers : Nat),
      ∀ st ∈ (ProcessFile rows numWorkers).1.DomainStats,
        '@' ∉ st.Name ∧ toLower st.Name = st.Name ∧ 1 ≤ st.Count) := by
  have hpart1 : ∀ s : Str, extractDomain s ≠ [] →
      '@' ∉ extractDomain s ∧ toLower (extractDomain s) = extractDomain s :=
    fun _ h => ⟨extractDomain_no_at h, extractDomain_lower_fixed _⟩
  refine ⟨hpart1, ?_⟩
  intro rows nw st hst
  cases rows with
  | nil =>
    rw [ProcessFile_error (processCsv_nil nw)] at hst
    simp at hst
  | cons r rest =>
    cases r with
    | bad =>
      rw [ProcessFile_error (processCsv_bad rest nw)] at hst
      simp at hst
    | ok hdr =>
      rw [ProcessFile_ok (processCsv_ok hdr rest nw)] at hst
      rw [aggregateDomains_eq] at hst
      have hst' : st ∈ createStats
          ((extractDomains (csvReader rest)).foldl bump []) := hst
      have hds : ∀ d ∈ extractDomains (csvReader rest),
          '@' ∉ d ∧ toLower d = d := by
        intro d hd
        rcases List.mem_filterMap.1 hd with ⟨e, _, hde⟩
        unfold domainOfEmail at hde
        by_cases hnil : extractDomain (trimSpace e) = []
        · rw [if_pos hnil] at hde
          cases hde
        · rw [if_neg hnil] at hde
          have hd' := Option.some.inj hde
          subst hd'
          exact ⟨extractDomain_no_at hnil, extractDomain_lower_fixed _⟩
      have hinv := mem_foldl_bump (extractDomains (csvReader rest)) []
        (fun p hp => absurd hp (List.not_mem_nil p)) hds
      have hmem : st ∈ (((extractDomains (csvReader rest)).foldl bump []).map
          fun p => (⟨p.1, p.2⟩ : DomainStat)) :=
        (createStats_perm _).subset hst'
      rcases List.mem_map.1 hmem with ⟨p, hp, hmk⟩
      have hpp := hinv p hp
      rw [← hmk]
      exact ⟨hpp.1.1, hpp.1.2, hpp.2⟩

/-- Witness for C10 at the concrete email `x@B.com` and a concrete
one-customer run. -/
theorem claim_C10_witness :
    (extractDomain "x@B.com".data ≠ [] ∧
      '@' ∉ extractDomain "x@B.com".data ∧
      toLower (extractDomain "x@B.com".data) = extractDomain "x@B.com".data) ∧
    ((⟨"b.com".data, 1⟩ : DomainStat) ∈
      (ProcessFile [RawRow.ok [], sampleRow "x@B.com"] 1).1.DomainStats ∧
      '@' ∉ ("b.com".data : Str) ∧
      toLower "b.com".data = "b.com".data ∧ 1 ≤ 1) :=
  ⟨⟨by decide, (claim_C10_invariants.1 "x@B.com".data (by decide)).1,
    (claim_C10_invariants.1 "x@B.com".data (by decide)).2⟩,
   ⟨by decide, claim_C10_invariants.2 [RawRow.ok [], sampleRow "x@B.com"] 1
      ⟨"b.com".data, 1⟩ (by decide)⟩⟩

end CustomerImporter
